import Mathlib

/-!
Verification development for the block-allocated shared-memory messaging backend
(`subsys/ipc/ipc_service/backends/ipc_icmsg_with_buf.c`).

The shared region of one direction (TX or RX) is modelled by its geometry
(`channel_config`) together with the parts of the memory the backend reads and
writes: the per-block `size` header fields, the first data byte of each block
(the `ept_addr` field of `struct ept_bound_msg`), and the TX usage bitmap.
Pointers into the blocks area are modelled as byte offsets from `blocks_ptr`.

`sys_bitarray_*` (Zephyr's bit array library) is part of the repository but not
among the provided sources, so it is modelled from the spec: a first-fit
contiguous-run allocator over a set of reserved bit indices.
-/

namespace IcmsgWithBuf

/-- Error codes returned by the backend (negative errno values in C). -/
inductive Err
  | EINVAL   -- invalid argument / capacity exceeded
  | ENOSPC   -- no space and K_NO_WAIT
  | EAGAIN   -- timeout expired while waiting
  | ENOMEM   -- fixed-capacity table exhausted
  | EIO      -- underlying ICMsg (link) send failure
deriving DecidableEq, Repr

instance {ε α : Type} [DecidableEq ε] [DecidableEq α] : DecidableEq (Except ε α) :=
  fun a b =>
    match a, b with
    | .error e1, .error e2 =>
      decidable_of_iff (e1 = e2) ⟨fun h => by rw [h], fun h => by injection h⟩
    | .error _, .ok _ => isFalse (fun h => Except.noConfusion h)
    | .ok _, .error _ => isFalse (fun h => Except.noConfusion h)
    | .ok a1, .ok a2 =>
      decidable_of_iff (a1 = a2) ⟨fun h => by rw [h], fun h => by injection h⟩

/-- EPT_ADDR_INVALID: special endpoint address indicating invalid (or empty) entry. -/
def EPT_ADDR_INVALID : ℕ := 0xFF

/-- Geometry of one channel (`struct channel_config`).  `blocks_ptr` is the origin of
the byte-offset pointer model and is therefore not represented.  `hdr_size` is
BLOCK_HEADER_SIZE = offsetof(struct block_header, data); it is kept as a parameter
because its concrete value (sizeof(size_t)) depends on the target word size. -/
structure channel_config where
  block_size : ℕ
  block_count : ℕ
  hdr_size : ℕ
deriving DecidableEq, Repr

/-- Geometry facts guaranteed by the BUILD_ASSERTs of DEFINE_BACKEND_DEVICE:
the block size is strictly larger than BLOCK_ALIGNMENT = sizeof(size_t), which
also equals the header size, and the header is one machine word, hence nonempty. -/
def channel_config.wf (ch : channel_config) : Prop :=
  0 < ch.hdr_size ∧ ch.hdr_size < ch.block_size

instance (ch : channel_config) : Decidable ch.wf :=
  inferInstanceAs (Decidable (0 < ch.hdr_size ∧ ch.hdr_size < ch.block_size))

/-- State of the TX side of one backend instance: the usage bitmap (set of reserved
block indices) plus the contents of shared memory the backend reads back: the
`size` header field of every block and the first data byte of every block
(holding `ept_bound_msg.ept_addr` for bound messages).  Payload bytes beyond
these are never re-read by the backend and are not modelled. -/
structure ShmState where
  bm : Finset ℕ
  hdr : List ℕ
  eptAddrByte : List ℕ

instance : DecidableEq ShmState := fun a b =>
  decidable_of_iff (a.bm = b.bm ∧ a.hdr = b.hdr ∧ a.eptAddrByte = b.eptAddrByte) (by
    cases a
    cases b
    simp)

/-- Modelled from the spec: `sys_bitarray_alloc` is not among the provided sources.
A run of `n` bits starting at `off` is free when none of its bits is reserved. -/
def isRunFree (bm : Finset ℕ) (off n : ℕ) : Bool :=
  decide (∀ i ∈ Finset.Ico off (off + n), i ∉ bm)

/-- Modelled from the spec: first-fit search for a contiguous free run of `n` bits,
trying offsets `start, start+1, ...` (`fuel` candidates). -/
def findRunFrom (bm : Finset ℕ) (n : ℕ) : ℕ → ℕ → Option ℕ
  | _, 0 => none
  | start, fuel + 1 =>
    if isRunFree bm start n then some start else findRunFrom bm n (start + 1) fuel

/-- Modelled from the spec: `sys_bitarray_alloc(bitmap, num_bits, &offset)` performs
an atomic contiguous-run allocation: it rejects a zero or over-capacity request
with -EINVAL, otherwise finds the first free run of `num_bits` bits, marks it
reserved and returns its offset, or fails with -ENOSPC when no run exists. -/
def sys_bitarray_alloc (count : ℕ) (bm : Finset ℕ) (num_bits : ℕ) :
    Except Err (ℕ × Finset ℕ) :=
  if num_bits = 0 ∨ count < num_bits then .error Err.EINVAL
  else
    match findRunFrom bm num_bits 0 (count - num_bits + 1) with
    | some off => .ok (off, bm ∪ Finset.Ico off (off + num_bits))
    | none => .error Err.ENOSPC

/-- Modelled from the spec: `sys_bitarray_free(bitmap, num_bits, offset)` clears the
given run after bounds validation. -/
def sys_bitarray_free (count : ℕ) (bm : Finset ℕ) (num_bits off : ℕ) :
    Except Err (Finset ℕ) :=
  if num_bits = 0 ∨ count < off + num_bits then .error Err.EINVAL
  else .ok (bm \ Finset.Ico off (off + num_bits))

/-- Timeout argument of the allocator (`k_timeout_t`), abstracted to the three
classes the code distinguishes: K_NO_WAIT, a bounded wait, K_FOREVER. -/
inductive Timeout
  | noWait
  | bounded
  | forever
deriving DecidableEq, Repr

/-- Greedy extension loop of `alloc_tx_buffer` for the `*size == 0` case: starting
just after the secured block, each step is a `sys_bitarray_test_and_set_bit` that
stops at the first already-reserved bit or at the region end.  `fuel` bounds the
number of iterations (the caller passes the block count, which suffices). -/
def extendAlloc (count : ℕ) (bm : Finset ℕ) (next : ℕ) : ℕ → ℕ × Finset ℕ
  | 0 => (next, bm)
  | fuel + 1 =>
    if next < count then
      if next ∈ bm then (next, bm)
      else extendAlloc count (insert next bm) (next + 1) fuel
    else (next, bm)

/-- `alloc_tx_buffer`: compute the number of blocks needed for `size` payload bytes
plus the header, allocate them in the usage bitmap, for `size == 0` greedily
extend the run, then write the granted size into the first block's header and
return the first block index and the granted size.

The retry loop around the semaphore is resolved against a fixed bitmap: in this
sequential model no other thread frees blocks while the caller waits, so an
-ENOSPC attempt ends the call with -ENOSPC under K_NO_WAIT and with the timeout
status -EAGAIN otherwise; a successful attempt never waits. -/
def alloc_tx_buffer (ch : channel_config) (st : ShmState) (size : ℕ)
    (timeout : Timeout) : Except Err (ℕ × ℕ × ShmState) :=
  match sys_bitarray_alloc ch.block_count st.bm
      ((size + ch.hdr_size + ch.block_size - 1) / ch.block_size) with
  | .error Err.ENOSPC =>
    if timeout = Timeout.noWait then .error Err.ENOSPC else .error Err.EAGAIN
  | .error e => .error e
  | .ok (tx_block_index, bm1) =>
    let ext : ℕ × Finset ℕ :=
      if size = 0 then extendAlloc ch.block_count bm1 (tx_block_index + 1) ch.block_count
      else (tx_block_index + (size + ch.hdr_size + ch.block_size - 1) / ch.block_size, bm1)
    let granted := ch.block_size * (ext.1 - tx_block_index) - ch.hdr_size
    .ok (tx_block_index, granted,
      { bm := ext.2,
        hdr := st.hdr.set tx_block_index granted,
        eptAddrByte := st.eptAddrByte })

/-- `release_tx_blocks`: release all (`new_size < 0`) or the trailing part of the
blocks occupied by the buffer starting at `tx_block_index` whose current data
size is `size`.  A shrink to a `new_size` needing more blocks than currently
occupied fails with -EINVAL before any mutation; otherwise the header is updated
to `new_size` and the now-unneeded tail blocks are freed.  The state is returned
alongside the status so that mutations preceding a late failure are visible. -/
def release_tx_blocks (ch : channel_config) (st : ShmState) (tx_block_index size : ℕ)
    (new_size : ℤ) : ShmState × Except Err ℕ :=
  let num_blocks := (size + ch.hdr_size + ch.block_size - 1) / ch.block_size
  if 0 ≤ new_size then
    let new_num_blocks := (new_size.toNat + ch.hdr_size + ch.block_size - 1) / ch.block_size
    if num_blocks < new_num_blocks then (st, .error Err.EINVAL)
    else
      let st1 : ShmState := { st with hdr := st.hdr.set tx_block_index new_size.toNat }
      let release_index := tx_block_index + new_num_blocks
      let nrel := num_blocks - new_num_blocks
      if 0 < nrel then
        match sys_bitarray_free ch.block_count st1.bm nrel release_index with
        | .ok bm1 => ({ st1 with bm := bm1 }, .ok tx_block_index)
        | .error e => (st1, .error e)
      else (st1, .ok tx_block_index)
  else
    if 0 < num_blocks then
      match sys_bitarray_free ch.block_count st.bm num_blocks tx_block_index with
      | .ok bm1 => ({ st with bm := bm1 }, .ok tx_block_index)
      | .error e => (st, .error e)
    else (st, .ok tx_block_index)

/-- `buffer_from_index_validate`: translate a block index to the byte offset of its
data buffer, rejecting an out-of-range index; with size validation requested
(`size != NULL` in C, `wantSize` here) additionally read the block's `size`
header field and reject it when it does not fit the blocks area.  Returns the
data offset together with the validated size (or `none` in place of a size when
no validation was requested).  Cache invalidation has no observable effect in
this memory model and is omitted. -/
def buffer_from_index_validate (ch : channel_config) (hdrs : List ℕ) (block_index : ℕ)
    (wantSize : Bool) : Option (ℕ × Option ℕ) :=
  if ch.block_count ≤ block_index then none
  else if wantSize then
    let allocable_size := ch.block_count * ch.block_size
    let buffer_size := hdrs.getD block_index 0
    if allocable_size - ch.hdr_size < buffer_size ∨
       allocable_size < block_index * ch.block_size + ch.hdr_size + buffer_size then
      none
    else some (block_index * ch.block_size + ch.hdr_size, some buffer_size)
  else some (block_index * ch.block_size + ch.hdr_size, none)

/-- `buffer_to_index_validate`: compute the candidate block index from the buffer
pointer (byte offset) and the block size, re-derive the expected data pointer via
validation and require exact equality. -/
def buffer_to_index_validate (ch : channel_config) (hdrs : List ℕ) (buffer : ℕ)
    (wantSize : Bool) : Except Err (ℕ × Option ℕ) :=
  let block_index := buffer / ch.block_size
  match buffer_from_index_validate ch hdrs block_index wantSize with
  | none => .error Err.EINVAL
  | some (expected, sz) =>
    if expected = buffer then .ok (block_index, sz) else .error Err.EINVAL

/-- `send_block`: write the actual data size into the first block's header, flush
(no observable effect here) and send the ICMsg notification; the outcome of
`icmsg_send` is the `link_ok` parameter.  On link failure the just-used blocks
are released (with the size that was passed in) and the error is propagated.
The state is returned alongside the status. -/
def send_block (ch : channel_config) (st : ShmState) (tx_block_index size : ℕ)
    (link_ok : Bool) : ShmState × Except Err Unit :=
  let st1 : ShmState := { st with hdr := st.hdr.set tx_block_index size }
  if link_ok then (st1, .ok ())
  else ((release_tx_blocks ch st1 tx_block_index size (-1)).1, .error Err.EIO)

/-- `send` (the copying endpoint send): allocate a buffer for `len` bytes with an
infinite timeout, copy the payload (payload bytes are not modelled) and send the
data message via `send_block`. -/
def send (ch : channel_config) (st : ShmState) (len : ℕ) (link_ok : Bool) :
    ShmState × Except Err Unit :=
  match alloc_tx_buffer ch st len Timeout.forever with
  | .error e => (st, .error e)
  | .ok (tx_block_index, _granted, st1) => send_block ch st1 tx_block_index len link_ok

/-- `received_data`: handler for an incoming data message.  Validate the RX buffer
and the local endpoint address, clear the block's hold bit, invoke the endpoint's
receive callback (abstracted by its effect `cb` on the hold bitmap, since
`hold_rx_buffer` may set the bit from inside the callback), then request release
of the buffer exactly when the hold bit is still clear.  Returns the final hold
bitmap and whether a RELEASE_DATA notification was sent. -/
def received_data (rx : channel_config) (ept_count : ℕ) (rxHdrs : List ℕ)
    (hold : Finset ℕ) (rx_block_index local_addr : ℕ)
    (cb : Finset ℕ → Finset ℕ) : Except Err (Finset ℕ × Bool) :=
  match buffer_from_index_validate rx rxHdrs rx_block_index true with
  | none => .error Err.EINVAL
  | some _ =>
    if ept_count ≤ local_addr then .error Err.EINVAL
    else
      let hold1 := hold.erase rx_block_index
      let hold2 := cb hold1
      .ok (hold2, if rx_block_index ∈ hold2 then false else true)

/-- Endpoint bounding states (`enum ept_bounding_state`). -/
inductive ept_bounding_state
  | EPT_UNCONFIGURED
  | EPT_CONFIGURED
  | EPT_BOUNDING
  | EPT_BOUNDED
  | EPT_READY
deriving DecidableEq, Repr

/-- The per-endpoint data `received_release_bound` touches (`struct ept_data`
without the configuration pointer); endpoints are indexed by their local address
(= position in the registration array). -/
structure ept_data where
  remote_addr : ℕ
  state : ept_bounding_state
deriving Repr

instance : DecidableEq ept_data := fun a b =>
  decidable_of_iff (a.remote_addr = b.remote_addr ∧ a.state = b.state) (by
    cases a
    cases b
    simp)

/-- `received_release_bound`: handler for an incoming RELEASE_BOUND message.
Validate the TX buffer, read the local endpoint address embedded in its first
data byte, release the whole TX block run, and only then check the address:
out of range is rejected with -EINVAL and no endpoint is modified; otherwise the
endpoint moves to EPT_BOUNDED.  The (possibly mutated) state is returned
alongside the status. -/
def received_release_bound (tx : channel_config) (st : ShmState)
    (epts : List ept_data) (tx_block_index : ℕ) :
    ShmState × List ept_data × Except Err Unit :=
  match buffer_from_index_validate tx st.hdr tx_block_index true with
  | none => (st, epts, .error Err.EINVAL)
  | some (_buffer, osz) =>
    let size := osz.getD 0
    let local_addr := st.eptAddrByte.getD tx_block_index 0
    let rel := release_tx_blocks tx st tx_block_index size (-1)
    if epts.length ≤ local_addr then (rel.1, epts, .error Err.EINVAL)
    else
      (rel.1,
       epts.set local_addr
         { (epts.getD local_addr ⟨EPT_ADDR_INVALID, ept_bounding_state.EPT_UNCONFIGURED⟩) with
           state := ept_bounding_state.EPT_BOUNDED },
       rel.2.map fun _ => ())

/-- View of one endpoint for the bonding state machine, with a ghost counter of
how many times its user-supplied bound callback has been invoked. -/
structure BondEpt where
  state : ept_bounding_state
  remote_addr : ℕ
  bound_calls : ℕ
deriving Repr

instance : DecidableEq BondEpt := fun a b =>
  decidable_of_iff (a.state = b.state ∧ a.remote_addr = b.remote_addr ∧
    a.bound_calls = b.bound_calls) (by
    cases a
    cases b
    simp)

/-- A freshly registered endpoint: `register_ept` assigns EPT_CONFIGURED and an
invalid remote address; no callback has been invoked. -/
def initBondEpt : BondEpt :=
  ⟨ept_bounding_state.EPT_CONFIGURED, EPT_ADDR_INVALID, 0⟩

/-- Events affecting one endpoint, in the order the code serializes them under the
instance mutex:
* `workerRun ok` — one visit of `ept_bound_process` to this endpoint, where `ok`
  is the outcome of `send_bound_message` (relevant only in EPT_CONFIGURED);
* `recvBoundMatch a` — the worker matched an incoming BOUND message to this
  endpoint by name (`match_bound_msg`) and recorded the remote address `a`;
* `recvReleaseBound` — `received_release_bound` processed the peer's RELEASE_BOUND
  acknowledgement carrying this endpoint's local address. -/
inductive BondEvent
  | workerRun (sendOk : Bool)
  | recvBoundMatch (addr : ℕ)
  | recvReleaseBound
deriving DecidableEq, Repr

/-- One step of the bonding state machine, as implemented by `ept_bound_process`
and `received_release_bound`:
* the worker turns EPT_CONFIGURED into EPT_BOUNDING after a successful bound-message
  send and back into EPT_UNCONFIGURED on a send failure;
* the worker promotes EPT_BOUNDED to EPT_READY only when the remote address is
  known, invoking the user bound callback on exactly that transition;
* a name match records the remote address;
* RELEASE_BOUND sets the state to EPT_BOUNDED. -/
def bondStep (e : BondEpt) : BondEvent → BondEpt
  | .workerRun sendOk =>
    match e.state with
    | ept_bounding_state.EPT_CONFIGURED =>
      if sendOk then { e with state := ept_bounding_state.EPT_BOUNDING }
      else { e with state := ept_bounding_state.EPT_UNCONFIGURED }
    | ept_bounding_state.EPT_BOUNDED =>
      if e.remote_addr ≠ EPT_ADDR_INVALID then
        { e with state := ept_bounding_state.EPT_READY, bound_calls := e.bound_calls + 1 }
      else e
    | _ => e
  | .recvBoundMatch a => { e with remote_addr := a }
  | .recvReleaseBound => { e with state := ept_bounding_state.EPT_BOUNDED }

/-- Run a trace of events against a freshly registered endpoint. -/
def bondRun (evs : List BondEvent) : BondEpt :=
  evs.foldl bondStep initBondEpt

/-- An event respects the protocol when any matched remote address is a real
address (the peer sends its own endpoint's address, which is below the endpoint
capacity and hence never EPT_ADDR_INVALID). -/
def validBondEvent : BondEvent → Bool
  | BondEvent.recvBoundMatch a => decide (a ≠ EPT_ADDR_INVALID)
  | _ => true

/-- Number of RELEASE_BOUND events in a trace.  The protocol produces at most one
per endpoint: the peer acknowledges the single BOUND message once. -/
def countRRB : List BondEvent → ℕ
  | [] => 0
  | ev :: rest => (if ev = BondEvent.recvReleaseBound then 1 else 0) + countRRB rest

/-- Invariant of a bonding trace after `rrb` RELEASE_BOUND events: before the
acknowledgement the endpoint has not fired its bound callback and is in one of
the pre-BOUNDED states; after the single acknowledgement it is either BOUNDED
with the callback not yet fired, or READY with the callback fired exactly once
and the remote address known. -/
def BondInv (e : BondEpt) (rrb : ℕ) : Prop :=
  (rrb = 0 →
    (e.state = ept_bounding_state.EPT_UNCONFIGURED ∨
     e.state = ept_bounding_state.EPT_CONFIGURED ∨
     e.state = ept_bounding_state.EPT_BOUNDING) ∧ e.bound_calls = 0) ∧
  (rrb = 1 →
    (e.state = ept_bounding_state.EPT_BOUNDED ∧ e.bound_calls = 0) ∨
    (e.state = ept_bounding_state.EPT_READY ∧ e.bound_calls = 1 ∧
     e.remote_addr ≠ EPT_ADDR_INVALID))

/-- Fold of `alloc_tx_buffer` over a list of requested sizes (no releases in
between), recording for every successful allocation its first block index and
the number of blocks granted, recovered from the granted size. -/
def allocSeq (ch : channel_config) (st : ShmState) :
    List ℕ → Option (ShmState × List (ℕ × ℕ))
  | [] => some (st, [])
  | size :: rest =>
    match alloc_tx_buffer ch st size Timeout.noWait with
    | .error _ => none
    | .ok (idx, granted, st1) =>
      match allocSeq ch st1 rest with
      | none => none
      | some (stF, grants) =>
        some (stF, (idx, (granted + ch.hdr_size) / ch.block_size) :: grants)

/-- Set of block indices a granted run occupies. -/
def runOf (g : ℕ × ℕ) : Finset ℕ := Finset.Ico g.1 (g.1 + g.2)

/-- Concrete geometry used by witnesses: 8 blocks of 8 bytes with a 4-byte header. -/
def chW : channel_config := ⟨8, 8, 4⟩

/-- Concrete TX state used by witnesses: all blocks free, zeroed shared memory. -/
def stW : ShmState := ⟨∅, [0, 0, 0, 0, 0, 0, 0, 0], [0, 0, 0, 0, 0, 0, 0, 0]⟩

/-! ### Arithmetic helpers for the ceiling division `(a + bs - 1) / bs` -/

lemma ceil_div_le_iff {a bs k : ℕ} (hbs : 0 < bs) :
    (a + bs - 1) / bs ≤ k ↔ a ≤ k * bs := by
  have hsum : a + bs - 1 = a + (bs - 1) := by omega
  constructor
  · intro h
    by_contra hc
    push_neg at hc
    have h2 : (k + 1) * bs ≤ a + bs - 1 := by
      have hk : (k + 1) * bs = k * bs + bs := by ring
      rw [hk, hsum]
      omega
    have h3 : k + 1 ≤ (a + bs - 1) / bs := (Nat.le_div_iff_mul_le hbs).mpr h2
    omega
  · intro h
    have h2 : a + bs - 1 < (k + 1) * bs := by
      have hk : (k + 1) * bs = k * bs + bs := by ring
      rw [hk, hsum]
      omega
    have h3 : (a + bs - 1) / bs < k + 1 := (Nat.div_lt_iff_lt_mul hbs).mpr h2
    omega

lemma le_mul_ceil_div {a bs : ℕ} (hbs : 0 < bs) : a ≤ ((a + bs - 1) / bs) * bs :=
  (ceil_div_le_iff hbs).mp le_rfl

lemma ceil_div_pos {a bs : ℕ} (hbs : 0 < bs) (ha : 0 < a) : 0 < (a + bs - 1) / bs := by
  by_contra h
  push_neg at h
  have h0 : (a + bs - 1) / bs ≤ 0 := by omega
  have := (ceil_div_le_iff hbs).mp h0
  omega

/-! ### Properties of the bitmap allocator -/

lemma isRunFree_iff {bm : Finset ℕ} {off n : ℕ} :
    isRunFree bm off n = true ↔ ∀ i, off ≤ i → i < off + n → i ∉ bm := by
  simp [isRunFree, Finset.mem_Ico]

lemma findRunFrom_some {bm : Finset ℕ} {n : ℕ} :
    ∀ {fuel start off : ℕ}, findRunFrom bm n start fuel = some off →
      start ≤ off ∧ off < start + fuel ∧ isRunFree bm off n = true ∧
      ∀ j, start ≤ j → j < off → isRunFree bm j n = false := by
  intro fuel
  induction fuel with
  | zero =>
    intro start off h
    simp [findRunFrom] at h
  | succ k ih =>
    intro start off h
    simp only [findRunFrom] at h
    by_cases hfree : isRunFree bm start n = true
    · rw [if_pos hfree] at h
      injection h with h
      subst h
      exact ⟨le_refl _, by omega, hfree, fun j h1 h2 => absurd (lt_of_le_of_lt h1 h2)
        (lt_irrefl _)⟩
    · rw [if_neg hfree] at h
      obtain ⟨h1, h2, h3, h4⟩ := ih h
      refine ⟨by omega, by omega, h3, fun j hj1 hj2 => ?_⟩
      rcases Nat.eq_or_lt_of_le hj1 with rfl | hlt
      · exact Bool.eq_false_iff.mpr hfree
      · exact h4 j (by omega) hj2

lemma sys_bitarray_alloc_ok {count : ℕ} {bm : Finset ℕ} {n off : ℕ} {bm' : Finset ℕ}
    (h : sys_bitarray_alloc count bm n = .ok (off, bm')) :
    0 < n ∧ n ≤ count ∧ off + n ≤ count ∧
    (∀ i, off ≤ i → i < off + n → i ∉ bm) ∧
    bm' = bm ∪ Finset.Ico off (off + n) ∧
    (∀ j, j < off → isRunFree bm j n = false) := by
  unfold sys_bitarray_alloc at h
  by_cases hc : n = 0 ∨ count < n
  · rw [if_pos hc] at h
    exact absurd h (fun h => Except.noConfusion h)
  · rw [if_neg hc] at h
    push_neg at hc
    obtain ⟨hn0, hnc⟩ := hc
    rcases hf : findRunFrom bm n 0 (count - n + 1) with _ | o
    · rw [hf] at h
      exact absurd h (fun h => Except.noConfusion h)
    · rw [hf] at h
      obtain ⟨h1, h2, h3, h4⟩ := findRunFrom_some hf
      have hpair := Except.ok.inj h
      have hoff : o = off := congrArg Prod.fst hpair
      have hbm : (bm ∪ Finset.Ico o (o + n)) = bm' := congrArg Prod.snd hpair
      subst hoff
      subst hbm
      refine ⟨by omega, by omega, by omega, fun i hi1 hi2 => isRunFree_iff.mp h3 i hi1 hi2,
        rfl, fun j hj => h4 j (Nat.zero_le j) hj⟩

lemma extendAlloc_spec {count : ℕ} :
    ∀ (fuel : ℕ) (bm : Finset ℕ) (next : ℕ), count ≤ next + fuel → next ≤ count →
      next ≤ (extendAlloc count bm next fuel).1 ∧
      (extendAlloc count bm next fuel).1 ≤ count ∧
      (extendAlloc count bm next fuel).2 =
        bm ∪ Finset.Ico next (extendAlloc count bm next fuel).1 ∧
      (∀ j, next ≤ j → j < (extendAlloc count bm next fuel).1 → j ∉ bm) ∧
      ((extendAlloc count bm next fuel).1 = count ∨
        (extendAlloc count bm next fuel).1 ∈ bm) := by
  intro fuel
  induction fuel with
  | zero =>
    intro bm next h1 h2
    have hnc : next = count := by omega
    simp only [extendAlloc]
    exact ⟨le_refl _, h2, by simp, fun j hj1 hj2 => absurd hj2 (by omega), Or.inl hnc⟩
  | succ k ih =>
    intro bm next h1 h2
    simp only [extendAlloc]
    by_cases hlt : next < count
    · rw [if_pos hlt]
      by_cases hmem : next ∈ bm
      · rw [if_pos hmem]
        exact ⟨le_refl _, h2, by simp, fun j hj1 hj2 => absurd hj2 (by omega), Or.inr hmem⟩
      · rw [if_neg hmem]
        obtain ⟨g1, g2, g3, g4, g5⟩ := ih (insert next bm) (next + 1) (by omega) (by omega)
        refine ⟨by omega, g2, ?_, ?_, ?_⟩
        · rw [g3]
          ext a
          simp only [Finset.mem_union, Finset.mem_insert, Finset.mem_Ico]
          constructor
          · rintro ((rfl | hbm) | ⟨ha1, ha2⟩)
            · exact Or.inr ⟨le_refl _, by omega⟩
            · exact Or.inl hbm
            · exact Or.inr ⟨by omega, ha2⟩
          · rintro (hbm | ⟨ha1, ha2⟩)
            · exact Or.inl (Or.inr hbm)
            · rcases Nat.eq_or_lt_of_le ha1 with rfl | hlt2
              · exact Or.inl (Or.inl rfl)
              · exact Or.inr ⟨by omega, ha2⟩
        · intro j hj1 hj2
          rcases Nat.eq_or_lt_of_le hj1 with rfl | hlt2
          · exact hmem
          · exact fun hbm => g4 j (by omega) hj2 (Finset.mem_insert_of_mem hbm)
        · rcases g5 with g5 | g5
          · exact Or.inl g5
          · rcases Finset.mem_insert.mp g5 with heq | hbm
            · exact absurd g1 (by rw [heq]; omega)
            · exact Or.inr hbm
    · rw [if_neg hlt]
      have hnc : next = count := by omega
      exact ⟨le_refl _, h2, by simp, fun j hj1 hj2 => absurd hj2 (by omega), Or.inl hnc⟩

/-- Unfolding equation of `alloc_tx_buffer` for a zero-size request when the bitmap
allocation succeeded. -/
lemma alloc_tx_buffer_eq_ok_zero {ch : channel_config} {st : ShmState}
    {t : Timeout} {i0 : ℕ} {bm1 : Finset ℕ}
    (ha : sys_bitarray_alloc ch.block_count st.bm
      ((0 + ch.hdr_size + ch.block_size - 1) / ch.block_size) = .ok (i0, bm1)) :
    alloc_tx_buffer ch st 0 t = .ok (i0,
      ch.block_size * ((extendAlloc ch.block_count bm1 (i0 + 1) ch.block_count).1 - i0)
        - ch.hdr_size,
      { bm := (extendAlloc ch.block_count bm1 (i0 + 1) ch.block_count).2,
        hdr := st.hdr.set i0 (ch.block_size *
          ((extendAlloc ch.block_count bm1 (i0 + 1) ch.block_count).1 - i0) - ch.hdr_size),
        eptAddrByte := st.eptAddrByte }) := by
  unfold alloc_tx_buffer
  rw [ha]
  rfl

/-- Unfolding equation of `alloc_tx_buffer` for a nonzero request when the bitmap
allocation succeeded. -/
lemma alloc_tx_buffer_eq_ok_pos {ch : channel_config} {st : ShmState} {size : ℕ}
    {t : Timeout} {i0 : ℕ} {bm1 : Finset ℕ} (hsz : size ≠ 0)
    (ha : sys_bitarray_alloc ch.block_count st.bm
      ((size + ch.hdr_size + ch.block_size - 1) / ch.block_size) = .ok (i0, bm1)) :
    alloc_tx_buffer ch st size t = .ok (i0,
      ch.block_size * ((size + ch.hdr_size + ch.block_size - 1) / ch.block_size)
        - ch.hdr_size,
      { bm := bm1,
        hdr := st.hdr.set i0 (ch.block_size *
          ((size + ch.hdr_size + ch.block_size - 1) / ch.block_size) - ch.hdr_size),
        eptAddrByte := st.eptAddrByte }) := by
  unfold alloc_tx_buffer
  rw [ha]
  simp only [if_neg hsz]
  rw [Nat.add_sub_cancel_left]

/-- Master specification of a successful `alloc_tx_buffer`: there is a number `nb`
of granted blocks such that the run `[idx, idx+nb)` was free, is now reserved,
the granted size is `nb * block_size - hdr_size` and is recorded in the first
block's header; for a nonzero request `nb` is the ceiling count, and for a
zero request the run is anchored at the first free block and maximal. -/
lemma alloc_tx_buffer_ok {ch : channel_config} {st : ShmState} {size : ℕ} {t : Timeout}
    {idx granted : ℕ} {st' : ShmState} (hwf : ch.wf)
    (h : alloc_tx_buffer ch st size t = .ok (idx, granted, st')) :
    ∃ nb : ℕ, 0 < nb ∧ idx + nb ≤ ch.block_count ∧
      (∀ i, idx ≤ i → i < idx + nb → i ∉ st.bm) ∧
      st'.bm = st.bm ∪ Finset.Ico idx (idx + nb) ∧
      granted = ch.block_size * nb - ch.hdr_size ∧
      ch.hdr_size ≤ ch.block_size * nb ∧
      (granted + ch.hdr_size) / ch.block_size = nb ∧
      st'.hdr = st.hdr.set idx granted ∧
      st'.eptAddrByte = st.eptAddrByte ∧
      (size ≠ 0 → nb = (size + ch.hdr_size + ch.block_size - 1) / ch.block_size) ∧
      (size = 0 → ((idx + nb = ch.block_count ∨ idx + nb ∈ st.bm) ∧
        ∀ j, j < idx → j ∈ st.bm)) := by
  obtain ⟨hh0, hhb⟩ := hwf
  have hbs : 0 < ch.block_size := by omega
  rcases ha : sys_bitarray_alloc ch.block_count st.bm
      ((size + ch.hdr_size + ch.block_size - 1) / ch.block_size) with e | ⟨i0, bm1⟩
  · unfold alloc_tx_buffer at h
    rw [ha] at h
    cases e <;> cases t <;> simp at h
  · obtain ⟨hn0, hnc, hbound, hfree, hbm1, hmin⟩ := sys_bitarray_alloc_ok ha
    by_cases hsz : size = 0
    · subst hsz
      have hn1 : (0 + ch.hdr_size + ch.block_size - 1) / ch.block_size = 1 := by
        have hle : (0 + ch.hdr_size + ch.block_size - 1) / ch.block_size ≤ 1 :=
          (ceil_div_le_iff hbs).mpr (by omega)
        have hp : 0 < (0 + ch.hdr_size + ch.block_size - 1) / ch.block_size :=
          ceil_div_pos hbs (by omega)
        omega
      rw [hn1] at hnc hbound hfree hbm1 hmin
      rw [alloc_tx_buffer_eq_ok_zero ha] at h
      simp only [Except.ok.injEq, Prod.mk.injEq] at h
      obtain ⟨hidx, hgr, hst⟩ := h
      rw [← hidx, ← hgr, ← hst]
      obtain ⟨e1, e2, e3, e4, e5⟩ := @extendAlloc_spec ch.block_count ch.block_count bm1
        (i0 + 1) (by omega) (by omega)
      set f := (extendAlloc ch.block_count bm1 (i0 + 1) ch.block_count).1 with hf
      set bm2 := (extendAlloc ch.block_count bm1 (i0 + 1) ch.block_count).2 with hbm2
      have hmul : ch.hdr_size ≤ ch.block_size * (f - i0) := by
        calc ch.hdr_size ≤ ch.block_size * 1 := by omega
          _ ≤ ch.block_size * (f - i0) := Nat.mul_le_mul_left _ (by omega)
      have hio : i0 + (f - i0) = f := by omega
      refine ⟨f - i0, by omega, by omega, ?_, ?_, rfl, hmul, ?_, rfl, rfl,
        by tauto, fun _ => ⟨?_, ?_⟩⟩
      · intro i hi1 hi2
        rcases Nat.eq_or_lt_of_le hi1 with rfl | hlt2
        · exact hfree i0 (le_refl _) (by omega)
        · intro hbm
          exact e4 i (by omega) (by omega) (by rw [hbm1]; exact Finset.mem_union_left _ hbm)
      · show bm2 = st.bm ∪ Finset.Ico i0 (i0 + (f - i0))
        rw [e3, hbm1, hio]
        ext a
        simp only [Finset.mem_union, Finset.mem_Ico]
        constructor
        · rintro ((hbm | ⟨ha1, ha2⟩) | ⟨ha1, ha2⟩)
          · exact Or.inl hbm
          · exact Or.inr ⟨ha1, by omega⟩
          · exact Or.inr ⟨by omega, ha2⟩
        · rintro (hbm | ⟨ha1, ha2⟩)
          · exact Or.inl (Or.inl hbm)
          · rcases Nat.lt_or_ge a (i0 + 1) with hlt2 | hge
            · exact Or.inl (Or.inr ⟨ha1, hlt2⟩)
            · exact Or.inr ⟨hge, ha2⟩
      · show (ch.block_size * (f - i0) - ch.hdr_size + ch.hdr_size) / ch.block_size = f - i0
        rw [Nat.sub_add_cancel hmul, Nat.mul_div_cancel_left _ hbs]
      · rcases e5 with e5 | e5
        · left
          omega
        · right
          rw [hbm1] at e5
          rw [hio]
          rcases Finset.mem_union.mp e5 with e5 | e5
          · exact e5
          · exact absurd (Finset.mem_Ico.mp e5) (by omega)
      · intro j hj
        by_contra hbm
        have hrun : isRunFree st.bm j 1 = true :=
          isRunFree_iff.mpr (fun i hi1 hi2 => by
            have hij : i = j := by omega
            rw [hij]
            exact hbm)
        rw [hmin j hj] at hrun
        exact Bool.noConfusion hrun
    · rw [alloc_tx_buffer_eq_ok_pos hsz ha] at h
      simp only [Except.ok.injEq, Prod.mk.injEq] at h
      obtain ⟨hidx, hgr, hst⟩ := h
      rw [← hidx, ← hgr, ← hst]
      set n := (size + ch.hdr_size + ch.block_size - 1) / ch.block_size with hn
      have hmul : ch.hdr_size ≤ ch.block_size * n := by
        have h1 : size + ch.hdr_size ≤ n * ch.block_size := le_mul_ceil_div hbs
        calc ch.hdr_size ≤ size + ch.hdr_size := by omega
          _ ≤ n * ch.block_size := h1
          _ = ch.block_size * n := by ring
      refine ⟨n, by omega, hbound, hfree, hbm1, rfl, hmul, ?_, rfl, rfl,
        fun _ => rfl, fun hc => absurd hc hsz⟩
      show (ch.block_size * n - ch.hdr_size + ch.hdr_size) / ch.block_size = n
      rw [Nat.sub_add_cancel hmul, Nat.mul_div_cancel_left _ hbs]

/-! ### Characterization of the validator -/

/-- With size validation requested, `buffer_from_index_validate` accepts exactly the
in-range indices whose header size field keeps the end of the data area within
the blocks area; the first check of the code (`buffer_size > allocable_size -
BLOCK_HEADER_SIZE`) is implied by the end-pointer check and never rejects more. -/
lemma buffer_from_index_validate_eq (ch : channel_config) (hdrs : List ℕ) (i : ℕ) :
    buffer_from_index_validate ch hdrs i true =
      if i < ch.block_count ∧
         i * ch.block_size + ch.hdr_size + hdrs.getD i 0 ≤
           ch.block_count * ch.block_size then
        some (i * ch.block_size + ch.hdr_size, some (hdrs.getD i 0))
      else none := by
  simp only [buffer_from_index_validate]
  by_cases h1 : ch.block_count ≤ i
  · rw [if_pos h1, if_neg (fun hc => absurd hc.1 (Nat.not_lt.mpr h1))]
  · rw [if_neg h1, if_pos trivial]
    push_neg at h1
    by_cases h2 : i * ch.block_size + ch.hdr_size + hdrs.getD i 0 ≤
        ch.block_count * ch.block_size
    · have hfirst : ¬(ch.block_count * ch.block_size - ch.hdr_size < hdrs.getD i 0 ∨
          ch.block_count * ch.block_size <
            i * ch.block_size + ch.hdr_size + hdrs.getD i 0) := by
        push_neg
        refine ⟨?_, h2⟩
        revert h2
        generalize i * ch.block_size = A
        generalize ch.block_count * ch.block_size = B
        intro h2
        omega
      rw [if_neg hfirst, if_pos ⟨h1, h2⟩]
    · rw [if_pos (Or.inr (Nat.not_le.mp h2)), if_neg (fun hc => h2 hc.2)]

/-- The data-pointer offset of a block determines its index: dividing it by the
block size recovers the index, because the header offset is below the block size. -/
lemma data_offset_div (ch : channel_config) (i : ℕ) (hwf : ch.wf) :
    (i * ch.block_size + ch.hdr_size) / ch.block_size = i := by
  obtain ⟨h0, h1⟩ := hwf
  have hbs : 0 < ch.block_size := by omega
  rw [mul_comm i ch.block_size, Nat.mul_add_div hbs, Nat.div_eq_of_lt h1, Nat.add_zero]

/-! ### C2 -/

/-- C2.  Buffer validation rejects all corrupt inputs: with size validation
requested, `buffer_from_index_validate` returns an error for every index at or
beyond the block count, returns an error whenever the header size field, taken
alone, would make the end of the data area exceed the end of the blocks region,
and otherwise returns the block's data pointer together with that size. -/
theorem C2_validate_rejects_corrupt (ch : channel_config) (hdrs : List ℕ) (i : ℕ) :
    (ch.block_count ≤ i → buffer_from_index_validate ch hdrs i true = none) ∧
    (i < ch.block_count →
      (ch.block_count * ch.block_size <
         i * ch.block_size + ch.hdr_size + hdrs.getD i 0 →
         buffer_from_index_validate ch hdrs i true = none) ∧
      (i * ch.block_size + ch.hdr_size + hdrs.getD i 0 ≤
         ch.block_count * ch.block_size →
         buffer_from_index_validate ch hdrs i true =
           some (i * ch.block_size + ch.hdr_size, some (hdrs.getD i 0)))) := by
  rw [buffer_from_index_validate_eq]
  refine ⟨fun h => ?_, fun h => ⟨fun h2 => ?_, fun h2 => ?_⟩⟩
  · rw [if_neg]; intro hc; omega
  · rw [if_neg]; intro hc; omega
  · rw [if_pos ⟨h, h2⟩]

/-- C2 witness: a concrete geometry (8 blocks of 32 bytes, 4-byte header) with a
corrupted size field 1000 in block 2 and a valid size 10 in block 1. -/
theorem C2_validate_rejects_corrupt_witness :
    (let ch : channel_config := ⟨32, 8, 4⟩
     let hdrs : List ℕ := [0, 10, 1000, 0, 0, 0, 0, 0]
     (ch.block_count ≤ 9 → buffer_from_index_validate ch hdrs 9 true = none) ∧
     (9 < ch.block_count →
       (ch.block_count * ch.block_size <
          9 * ch.block_size + ch.hdr_size + hdrs.getD 9 0 →
          buffer_from_index_validate ch hdrs 9 true = none) ∧
       (9 * ch.block_size + ch.hdr_size + hdrs.getD 9 0 ≤
          ch.block_count * ch.block_size →
          buffer_from_index_validate ch hdrs 9 true =
            some (9 * ch.block_size + ch.hdr_size, some (hdrs.getD 9 0))))) ∧
    (let ch : channel_config := ⟨32, 8, 4⟩
     let hdrs : List ℕ := [0, 10, 1000, 0, 0, 0, 0, 0]
     (ch.block_count ≤ 2 → buffer_from_index_validate ch hdrs 2 true = none) ∧
     (2 < ch.block_count →
       (ch.block_count * ch.block_size <
          2 * ch.block_size + ch.hdr_size + hdrs.getD 2 0 →
          buffer_from_index_validate ch hdrs 2 true = none) ∧
       (2 * ch.block_size + ch.hdr_size + hdrs.getD 2 0 ≤
          ch.block_count * ch.block_size →
          buffer_from_index_validate ch hdrs 2 true =
            some (2 * ch.block_size + ch.hdr_size, some (hdrs.getD 2 0))))) :=
  ⟨C2_validate_rejects_corrupt ⟨32, 8, 4⟩ [0, 10, 1000, 0, 0, 0, 0, 0] 9,
   C2_validate_rejects_corrupt ⟨32, 8, 4⟩ [0, 10, 1000, 0, 0, 0, 0, 0] 2⟩

/-! ### C9 -/

/-- C9.  Index/pointer round trip: for every block index whose header size field
passes validation, translating the index to its data pointer and back through
`buffer_to_index_validate` yields the same index (and the validated size); and
`buffer_to_index_validate` returns -EINVAL for every pointer that is not exactly
the data-start pointer of some valid block. -/
theorem C9_index_pointer_roundtrip (ch : channel_config) (hdrs : List ℕ)
    (hwf : ch.wf) :
    (∀ i, buffer_from_index_validate ch hdrs i true ≠ none →
       buffer_to_index_validate ch hdrs (i * ch.block_size + ch.hdr_size) true =
         .ok (i, some (hdrs.getD i 0))) ∧
    (∀ p, (∀ i, buffer_from_index_validate ch hdrs i true ≠ none →
             p ≠ i * ch.block_size + ch.hdr_size) →
       buffer_to_index_validate ch hdrs p true = .error Err.EINVAL) := by
  constructor
  · intro i hv
    rw [buffer_from_index_validate_eq] at hv
    by_cases hc : i < ch.block_count ∧
        i * ch.block_size + ch.hdr_size + hdrs.getD i 0 ≤
          ch.block_count * ch.block_size
    · simp only [buffer_to_index_validate]
      rw [data_offset_div ch i hwf]
      rw [buffer_from_index_validate_eq, if_pos hc]
      simp
    · rw [if_neg hc] at hv
      exact absurd rfl hv
  · intro p hp
    simp only [buffer_to_index_validate]
    rcases hv : buffer_from_index_validate ch hdrs (p / ch.block_size) true with
      _ | ⟨expected, sz⟩
    · rfl
    · have hne : p ≠ (p / ch.block_size) * ch.block_size + ch.hdr_size :=
        hp (p / ch.block_size) (by rw [hv]; exact fun h => Option.noConfusion h)
      have hexp : expected = (p / ch.block_size) * ch.block_size + ch.hdr_size := by
        rw [buffer_from_index_validate_eq] at hv
        by_cases hc : p / ch.block_size < ch.block_count ∧
            (p / ch.block_size) * ch.block_size + ch.hdr_size +
              hdrs.getD (p / ch.block_size) 0 ≤ ch.block_count * ch.block_size
        · rw [if_pos hc] at hv
          exact (congrArg Prod.fst (Option.some.inj hv)).symm
        · rw [if_neg hc] at hv
          exact absurd hv (fun h => Option.noConfusion h)
      simp only [hv]
      rw [if_neg (fun h => hne (by omega))]

/-- C9 witness: concrete geometry and headers; block 1 holds a valid size, the
pointer 17 is not a block data start. -/
theorem C9_index_pointer_roundtrip_witness :
    (⟨32, 8, 4⟩ : channel_config).wf ∧
    ((∀ i, buffer_from_index_validate ⟨32, 8, 4⟩ [0, 10, 1000, 0, 0, 0, 0, 0] i true ≠ none →
        buffer_to_index_validate ⟨32, 8, 4⟩ [0, 10, 1000, 0, 0, 0, 0, 0]
          (i * (32 : ℕ) + 4) true = .ok (i, some ([0, 10, 1000, 0, 0, 0, 0, 0].getD i 0))) ∧
     (∀ p, (∀ i, buffer_from_index_validate ⟨32, 8, 4⟩ [0, 10, 1000, 0, 0, 0, 0, 0] i true ≠ none →
              p ≠ i * (32 : ℕ) + 4) →
        buffer_to_index_validate ⟨32, 8, 4⟩ [0, 10, 1000, 0, 0, 0, 0, 0] p true =
          .error Err.EINVAL)) :=
  ⟨by decide, C9_index_pointer_roundtrip ⟨32, 8, 4⟩ [0, 10, 1000, 0, 0, 0, 0, 0] (by decide)⟩

end IcmsgWithBuf

namespace IcmsgWithBuf

/-! ### C3 -/

/-- C3.  Allocation size arithmetic: for every positive requested size the
allocator needs `ceil((size + hdr_size) / block_size)` blocks; when that count
exceeds the total TX block count the call fails with -EINVAL (the capacity
error, distinct from the timeout statuses) for every timeout value; on success
the granted size equals `blocks * block_size - hdr_size`, is at least the
requested size, is written into the first block's header and returned. -/
theorem C3_alloc_size_arithmetic (ch : channel_config) (st : ShmState) (size : ℕ)
    (t : Timeout) (hwf : ch.wf) (hpos : 0 < size) :
    (ch.block_count < (size + ch.hdr_size + ch.block_size - 1) / ch.block_size →
       alloc_tx_buffer ch st size t = .error Err.EINVAL) ∧
    (∀ idx granted st', alloc_tx_buffer ch st size t = .ok (idx, granted, st') →
       granted = ch.block_size *
         ((size + ch.hdr_size + ch.block_size - 1) / ch.block_size) - ch.hdr_size ∧
       size ≤ granted ∧
       st'.hdr = st.hdr.set idx granted) := by
  have hbs : 0 < ch.block_size := by
    obtain ⟨h1, h2⟩ := hwf
    omega
  constructor
  · intro hcap
    unfold alloc_tx_buffer
    have halloc : sys_bitarray_alloc ch.block_count st.bm
        ((size + ch.hdr_size + ch.block_size - 1) / ch.block_size) = .error Err.EINVAL := by
      unfold sys_bitarray_alloc
      rw [if_pos (Or.inr hcap)]
    rw [halloc]
  · intro idx granted st' h
    obtain ⟨nb, hnb0, hbound, hfree, hbm, hgr, hmul, hdiv, hhdr, hept, hposnb, hz⟩ :=
      alloc_tx_buffer_ok hwf h
    have hnb : nb = (size + ch.hdr_size + ch.block_size - 1) / ch.block_size :=
      hposnb (by omega)
    refine ⟨by rw [hgr, hnb], ?_, hhdr⟩
    rw [hgr, hnb]
    have h1 : size + ch.hdr_size ≤
        ((size + ch.hdr_size + ch.block_size - 1) / ch.block_size) * ch.block_size :=
      le_mul_ceil_div hbs
    rw [mul_comm] at h1
    generalize hq : (size + ch.hdr_size + ch.block_size - 1) / ch.block_size = q at h1 ⊢
    generalize ch.block_size * q = m at h1 ⊢
    omega

/-- C3 witness: requesting 100 bytes needs 13 blocks and exceeds the 8-block
region, failing with -EINVAL under an infinite timeout; the success conjunct is
kept as delivered by the theorem. -/
theorem C3_alloc_size_arithmetic_witness :
    chW.wf ∧ 0 < 100 ∧
    ((chW.block_count < (100 + chW.hdr_size + chW.block_size - 1) / chW.block_size →
       alloc_tx_buffer chW stW 100 Timeout.forever = .error Err.EINVAL) ∧
     (∀ idx granted st', alloc_tx_buffer chW stW 100 Timeout.forever = .ok (idx, granted, st') →
       granted = chW.block_size *
         ((100 + chW.hdr_size + chW.block_size - 1) / chW.block_size) - chW.hdr_size ∧
       100 ≤ granted ∧
       st'.hdr = stW.hdr.set idx granted)) :=
  ⟨by decide, by decide, C3_alloc_size_arithmetic chW stW 100 Timeout.forever
    (by decide) (by decide)⟩

/-! ### C5 -/

/-- C5.  Zero-size allocation grants the largest run anchored at the first free
block: every successful allocation with requested size 0 starts at the first
free block (all earlier blocks are reserved), covers only previously free
blocks, extends until a reserved bit or the region end, reserves exactly that
run, and grants at least one block. -/
theorem C5_zero_size_alloc (ch : channel_config) (st : ShmState) (t : Timeout)
    (idx granted : ℕ) (st' : ShmState) (hwf : ch.wf)
    (h : alloc_tx_buffer ch st 0 t = .ok (idx, granted, st')) :
    idx ∉ st.bm ∧ (∀ j, j < idx → j ∈ st.bm) ∧
    (∀ i, idx ≤ i → i < idx + (granted + ch.hdr_size) / ch.block_size → i ∉ st.bm) ∧
    (idx + (granted + ch.hdr_size) / ch.block_size = ch.block_count ∨
      idx + (granted + ch.hdr_size) / ch.block_size ∈ st.bm) ∧
    st'.bm = st.bm ∪ Finset.Ico idx (idx + (granted + ch.hdr_size) / ch.block_size) ∧
    1 ≤ (granted + ch.hdr_size) / ch.block_size := by
  obtain ⟨nb, hnb0, hbound, hfree, hbm, hgr, hmul, hdiv, hhdr, hept, hposnb, hz⟩ :=
    alloc_tx_buffer_ok hwf h
  obtain ⟨hstop, hmin⟩ := hz rfl
  rw [hdiv]
  exact ⟨hfree idx (le_refl _) (by omega), hmin, hfree, hstop, hbm, by omega⟩

/-- C5 witness: the spec's example instance — blocks 0,1,2 and 6 reserved, blocks
3,4,5 free; the zero-size allocation grants exactly the run starting at 3 of
3 blocks (granted size 20 = 3*8-4) and stops before the reserved block 6. -/
theorem C5_zero_size_alloc_witness :
    chW.wf ∧
    alloc_tx_buffer chW ⟨{0, 1, 2, 6}, [0, 0, 0, 0, 0, 0, 0, 0], [0, 0, 0, 0, 0, 0, 0, 0]⟩
      0 Timeout.noWait =
      .ok (3, 20, ⟨{0, 1, 2, 3, 4, 5, 6}, [0, 0, 0, 20, 0, 0, 0, 0],
        [0, 0, 0, 0, 0, 0, 0, 0]⟩) ∧
    (3 ∉ ({0, 1, 2, 6} : Finset ℕ) ∧
     (∀ j, j < 3 → j ∈ ({0, 1, 2, 6} : Finset ℕ)) ∧
     (∀ i, 3 ≤ i → i < 3 + (20 + chW.hdr_size) / chW.block_size →
        i ∉ ({0, 1, 2, 6} : Finset ℕ)) ∧
     (3 + (20 + chW.hdr_size) / chW.block_size = chW.block_count ∨
       3 + (20 + chW.hdr_size) / chW.block_size ∈ ({0, 1, 2, 6} : Finset ℕ)) ∧
     (⟨{0, 1, 2, 3, 4, 5, 6}, [0, 0, 0, 20, 0, 0, 0, 0],
        [0, 0, 0, 0, 0, 0, 0, 0]⟩ : ShmState).bm =
       ({0, 1, 2, 6} : Finset ℕ) ∪
         Finset.Ico 3 (3 + (20 + chW.hdr_size) / chW.block_size) ∧
     1 ≤ (20 + chW.hdr_size) / chW.block_size) :=
  ⟨by decide, by decide,
   C5_zero_size_alloc chW ⟨{0, 1, 2, 6}, [0, 0, 0, 0, 0, 0, 0, 0], [0, 0, 0, 0, 0, 0, 0, 0]⟩
     Timeout.noWait 3 20
     ⟨{0, 1, 2, 3, 4, 5, 6}, [0, 0, 0, 20, 0, 0, 0, 0], [0, 0, 0, 0, 0, 0, 0, 0]⟩
     (by decide) (by decide)⟩

end IcmsgWithBuf

namespace IcmsgWithBuf

/-! ### C1 -/

/-- Unfolding equation of `allocSeq` over a successful head allocation and tail. -/
lemma allocSeq_cons_ok {ch : channel_config} {st : ShmState} {size : ℕ}
    {rest : List ℕ} {idx granted : ℕ} {st1 stF : ShmState} {grants : List (ℕ × ℕ)}
    (ha : alloc_tx_buffer ch st size Timeout.noWait = .ok (idx, granted, st1))
    (hr : allocSeq ch st1 rest = some (stF, grants)) :
    allocSeq ch st (size :: rest) =
      some (stF, (idx, (granted + ch.hdr_size) / ch.block_size) :: grants) := by
  unfold allocSeq
  rw [ha]
  simp only [hr]

/-- Unfolding equation of `allocSeq` when the tail fails. -/
lemma allocSeq_cons_none {ch : channel_config} {st : ShmState} {size : ℕ}
    {rest : List ℕ} {idx granted : ℕ} {st1 : ShmState}
    (ha : alloc_tx_buffer ch st size Timeout.noWait = .ok (idx, granted, st1))
    (hr : allocSeq ch st1 rest = none) :
    allocSeq ch st (size :: rest) = none := by
  unfold allocSeq
  rw [ha]
  simp only [hr]

/-- Unfolding equation of `allocSeq` when the head allocation fails. -/
lemma allocSeq_cons_err {ch : channel_config} {st : ShmState} {size : ℕ}
    {rest : List ℕ} {e : Err}
    (ha : alloc_tx_buffer ch st size Timeout.noWait = .error e) :
    allocSeq ch st (size :: rest) = none := by
  unfold allocSeq
  rw [ha]

/-- Invariant of a release-free allocation sequence: the final bitmap cardinality
grows by exactly the sum of granted block counts, every granted run is disjoint
from the initial bitmap, the runs are pairwise disjoint, and the bitmap only
grows. -/
lemma allocSeq_spec {ch : channel_config} (hwf : ch.wf) :
    ∀ (sizes : List ℕ) (st stF : ShmState) (grants : List (ℕ × ℕ)),
      allocSeq ch st sizes = some (stF, grants) →
      stF.bm.card = st.bm.card + (grants.map Prod.snd).sum ∧
      (∀ g ∈ grants, Disjoint (runOf g) st.bm) ∧
      List.Pairwise (fun g1 g2 => Disjoint (runOf g1) (runOf g2)) grants ∧
      st.bm ⊆ stF.bm := by
  intro sizes
  induction sizes with
  | nil =>
    intro st stF grants h
    unfold allocSeq at h
    injection h with h
    have h1 : st = stF := congrArg Prod.fst h
    have h2 : ([] : List (ℕ × ℕ)) = grants := congrArg Prod.snd h
    subst h1
    subst h2
    simp
  | cons size rest ih =>
    intro st stF grants h
    rcases ha : alloc_tx_buffer ch st size Timeout.noWait with e | ⟨idx, granted, st1⟩
    · rw [allocSeq_cons_err ha] at h
      exact absurd h (fun h => Option.noConfusion h)
    · rcases hr : allocSeq ch st1 rest with _ | ⟨stF', grants'⟩
      · rw [allocSeq_cons_none ha hr] at h
        exact absurd h (fun h => Option.noConfusion h)
      · rw [allocSeq_cons_ok ha hr] at h
        injection h with h
        have h1 : stF' = stF := congrArg Prod.fst h
        have h2 : ((idx, (granted + ch.hdr_size) / ch.block_size) :: grants') = grants :=
          congrArg Prod.snd h
        subst h1
        subst h2
        obtain ⟨nb, hnb0, hbound, hfree, hbm, hgr, hmul, hdiv, hhdr, hept, hposnb, hz⟩ :=
          alloc_tx_buffer_ok hwf ha
        obtain ⟨icard, idisj, ipw, isub⟩ := ih st1 stF' grants' hr
        rw [hdiv]
        have hdisj : Disjoint (Finset.Ico idx (idx + nb)) st.bm := by
          rw [Finset.disjoint_left]
          intro a hmem
          obtain ⟨ha1, ha2⟩ := Finset.mem_Ico.mp hmem
          exact hfree a ha1 ha2
        have hsub1 : st.bm ⊆ st1.bm := by
          rw [hbm]
          exact Finset.subset_union_left
        have hrun : runOf (idx, nb) = Finset.Ico idx (idx + nb) := rfl
        have hcard1 : st1.bm.card = st.bm.card + nb := by
          rw [hbm, Finset.union_comm, Finset.card_union_of_disjoint hdisj, Nat.card_Ico]
          omega
        refine ⟨?_, ?_, ?_, fun a hmem => isub (hsub1 hmem)⟩
        · rw [icard, hcard1]
          simp only [List.map_cons, List.sum_cons]
          omega
        · intro g hg
          rcases List.mem_cons.mp hg with rfl | hg
          · rw [hrun]
            exact hdisj
          · exact Finset.disjoint_of_subset_right hsub1 (idisj g hg)
        · rw [List.pairwise_cons]
          refine ⟨fun g hg => ?_, ipw⟩
          have hrsub : runOf (idx, nb) ⊆ st1.bm := by
            rw [hrun, hbm]
            exact Finset.subset_union_right
          exact Finset.disjoint_of_subset_left hrsub (idisj g hg).symm

/-- C1.  TX bitmap mutual exclusion: after any sequence of successful allocations
starting from an empty TX bitmap with no intervening release, the number of bits
set in the bitmap equals the sum of the block counts granted, and the granted
block runs are pairwise disjoint. -/
theorem C1_tx_bitmap_mutual_exclusion (ch : channel_config) (hdr0 dat0 : List ℕ)
    (sizes : List ℕ) (stF : ShmState) (grants : List (ℕ × ℕ)) (hwf : ch.wf)
    (h : allocSeq ch ⟨∅, hdr0, dat0⟩ sizes = some (stF, grants)) :
    stF.bm.card = (grants.map Prod.snd).sum ∧
    List.Pairwise (fun g1 g2 => Disjoint (runOf g1) (runOf g2)) grants := by
  obtain ⟨hcard, _, hpw, _⟩ := allocSeq_spec hwf sizes ⟨∅, hdr0, dat0⟩ stF grants h
  refine ⟨?_, hpw⟩
  simpa using hcard

/-- C1 witness: two successful allocations of 4 and 10 bytes from the empty
bitmap grant runs of 1 and 2 blocks; 3 bits are set and the runs are disjoint. -/
theorem C1_tx_bitmap_mutual_exclusion_witness :
    chW.wf ∧
    allocSeq chW ⟨∅, [0, 0, 0, 0, 0, 0, 0, 0], [0, 0, 0, 0, 0, 0, 0, 0]⟩ [4, 10] =
      some (⟨{0, 1, 2}, [4, 12, 0, 0, 0, 0, 0, 0], [0, 0, 0, 0, 0, 0, 0, 0]⟩,
        [(0, 1), (1, 2)]) ∧
    ((⟨{0, 1, 2}, [4, 12, 0, 0, 0, 0, 0, 0], [0, 0, 0, 0, 0, 0, 0, 0]⟩ : ShmState).bm.card =
       ([(0, 1), (1, 2)].map Prod.snd).sum ∧
     List.Pairwise (fun g1 g2 => Disjoint (runOf g1) (runOf g2)) [(0, 1), (1, 2)]) :=
  ⟨by decide, by decide,
   C1_tx_bitmap_mutual_exclusion chW [0, 0, 0, 0, 0, 0, 0, 0] [0, 0, 0, 0, 0, 0, 0, 0]
     [4, 10] ⟨{0, 1, 2}, [4, 12, 0, 0, 0, 0, 0, 0], [0, 0, 0, 0, 0, 0, 0, 0]⟩
     [(0, 1), (1, 2)] (by decide) (by decide)⟩

/-! ### C4 -/

/-- C4.  Partial release is atomic on failure and monotone: for a valid allocated
run, a non-negative `new_size` that needs more blocks than currently occupied
makes `release_tx_blocks` fail with -EINVAL leaving bitmap and header unchanged;
otherwise it updates the header to `new_size`, frees exactly the trailing
no-longer-needed blocks, and the set of occupied blocks never grows. -/
theorem C4_partial_release_atomic (ch : channel_config) (st : ShmState)
    (idx size : ℕ) (new_size : ℤ) (hns : 0 ≤ new_size)
    (hrun : idx + (size + ch.hdr_size + ch.block_size - 1) / ch.block_size ≤
      ch.block_count) :
    ((size + ch.hdr_size + ch.block_size - 1) / ch.block_size <
       (new_size.toNat + ch.hdr_size + ch.block_size - 1) / ch.block_size →
       release_tx_blocks ch st idx size new_size = (st, .error Err.EINVAL)) ∧
    ((new_size.toNat + ch.hdr_size + ch.block_size - 1) / ch.block_size ≤
       (size + ch.hdr_size + ch.block_size - 1) / ch.block_size →
       release_tx_blocks ch st idx size new_size =
         (⟨st.bm \ Finset.Ico
             (idx + (new_size.toNat + ch.hdr_size + ch.block_size - 1) / ch.block_size)
             (idx + (size + ch.hdr_size + ch.block_size - 1) / ch.block_size),
           st.hdr.set idx new_size.toNat, st.eptAddrByte⟩, .ok idx) ∧
       (release_tx_blocks ch st idx size new_size).1.bm ⊆ st.bm) := by
  constructor
  · intro hgt
    simp only [release_tx_blocks]
    rw [if_pos hns, if_pos hgt]
  · intro hle
    have heq : release_tx_blocks ch st idx size new_size =
        (⟨st.bm \ Finset.Ico
            (idx + (new_size.toNat + ch.hdr_size + ch.block_size - 1) / ch.block_size)
            (idx + (size + ch.hdr_size + ch.block_size - 1) / ch.block_size),
          st.hdr.set idx new_size.toNat, st.eptAddrByte⟩, .ok idx) := by
      simp only [release_tx_blocks]
      rw [if_pos hns, if_neg (Nat.not_lt.mpr hle)]
      by_cases h0 : 0 < (size + ch.hdr_size + ch.block_size - 1) / ch.block_size -
          (new_size.toNat + ch.hdr_size + ch.block_size - 1) / ch.block_size
      · rw [if_pos h0]
        have hfr : sys_bitarray_free ch.block_count st.bm
            ((size + ch.hdr_size + ch.block_size - 1) / ch.block_size -
              (new_size.toNat + ch.hdr_size + ch.block_size - 1) / ch.block_size)
            (idx + (new_size.toNat + ch.hdr_size + ch.block_size - 1) / ch.block_size) =
            .ok (st.bm \ Finset.Ico
              (idx + (new_size.toNat + ch.hdr_size + ch.block_size - 1) / ch.block_size)
              (idx + (size + ch.hdr_size + ch.block_size - 1) / ch.block_size)) := by
          unfold sys_bitarray_free
          rw [if_neg (by omega)]
          have hio : idx + (new_size.toNat + ch.hdr_size + ch.block_size - 1) / ch.block_size +
              ((size + ch.hdr_size + ch.block_size - 1) / ch.block_size -
                (new_size.toNat + ch.hdr_size + ch.block_size - 1) / ch.block_size) =
              idx + (size + ch.hdr_size + ch.block_size - 1) / ch.block_size := by
            omega
          rw [hio]
        rw [hfr]
      · rw [if_neg h0]
        have hico : Finset.Ico
            (idx + (new_size.toNat + ch.hdr_size + ch.block_size - 1) / ch.block_size)
            (idx + (size + ch.hdr_size + ch.block_size - 1) / ch.block_size) = ∅ :=
          Finset.Ico_eq_empty (by omega)
        rw [hico, Finset.sdiff_empty]
    refine ⟨heq, ?_⟩
    rw [heq]
    exact Finset.sdiff_subset

/-- C4 witness: a 10-byte buffer occupying blocks 0,1; shrinking to 2 bytes needs
1 block, frees exactly the trailing block 1 and writes 2 into the header. -/
theorem C4_partial_release_atomic_witness :
    (0 : ℤ) ≤ 2 ∧
    (0 + (10 + chW.hdr_size + chW.block_size - 1) / chW.block_size ≤ chW.block_count) ∧
    (((10 + chW.hdr_size + chW.block_size - 1) / chW.block_size <
        ((2 : ℤ).toNat + chW.hdr_size + chW.block_size - 1) / chW.block_size →
        release_tx_blocks chW ⟨{0, 1}, [0, 0, 0, 0, 0, 0, 0, 0], [0, 0, 0, 0, 0, 0, 0, 0]⟩
          0 10 2 =
          (⟨{0, 1}, [0, 0, 0, 0, 0, 0, 0, 0], [0, 0, 0, 0, 0, 0, 0, 0]⟩, .error Err.EINVAL)) ∧
     (((2 : ℤ).toNat + chW.hdr_size + chW.block_size - 1) / chW.block_size ≤
        (10 + chW.hdr_size + chW.block_size - 1) / chW.block_size →
        release_tx_blocks chW ⟨{0, 1}, [0, 0, 0, 0, 0, 0, 0, 0], [0, 0, 0, 0, 0, 0, 0, 0]⟩
          0 10 2 =
          (⟨({0, 1} : Finset ℕ) \ Finset.Ico
              (0 + ((2 : ℤ).toNat + chW.hdr_size + chW.block_size - 1) / chW.block_size)
              (0 + (10 + chW.hdr_size + chW.block_size - 1) / chW.block_size),
            [0, 0, 0, 0, 0, 0, 0, 0].set 0 (2 : ℤ).toNat, [0, 0, 0, 0, 0, 0, 0, 0]⟩,
            .ok 0) ∧
        (release_tx_blocks chW ⟨{0, 1}, [0, 0, 0, 0, 0, 0, 0, 0], [0, 0, 0, 0, 0, 0, 0, 0]⟩
          0 10 2).1.bm ⊆ ({0, 1} : Finset ℕ))) :=
  ⟨by decide, by decide,
   C4_partial_release_atomic chW ⟨{0, 1}, [0, 0, 0, 0, 0, 0, 0, 0], [0, 0, 0, 0, 0, 0, 0, 0]⟩
     0 10 2 (by decide) (by decide)⟩

end IcmsgWithBuf

namespace IcmsgWithBuf

/-! ### C10 -/

/-- C10.  On an incoming RELEASE_BOUND message whose TX buffer passes block
validation but whose embedded local endpoint address is at or beyond the
registered endpoint count, the TX block run is freed (before the address check),
-EINVAL is returned, and no endpoint's state or remote address is modified. -/
theorem C10_release_bound_bad_addr (tx : channel_config) (st : ShmState)
    (epts : List ept_data) (idx sz : ℕ) (hwf : tx.wf)
    (hv : buffer_from_index_validate tx st.hdr idx true =
      some (idx * tx.block_size + tx.hdr_size, some sz))
    (ha : epts.length ≤ st.eptAddrByte.getD idx 0) :
    received_release_bound tx st epts idx =
      (⟨st.bm \ Finset.Ico idx
          (idx + (sz + tx.hdr_size + tx.block_size - 1) / tx.block_size),
        st.hdr, st.eptAddrByte⟩, epts, .error Err.EINVAL) := by
  obtain ⟨hh0, hhb⟩ := hwf
  have hbs : 0 < tx.block_size := by omega
  have hv2 := hv
  rw [buffer_from_index_validate_eq] at hv2
  by_cases hc : idx < tx.block_count ∧
      idx * tx.block_size + tx.hdr_size + st.hdr.getD idx 0 ≤
        tx.block_count * tx.block_size
  swap
  · rw [if_neg hc] at hv2
    exact absurd hv2 (fun h => Option.noConfusion h)
  · rw [if_pos hc] at hv2
    simp only [Option.some.injEq, Prod.mk.injEq] at hv2
    obtain ⟨hc1, hc2⟩ := hc
    have hsz : st.hdr.getD idx 0 = sz := hv2.2
    rw [hsz] at hc2
    have hnum : (sz + tx.hdr_size + tx.block_size - 1) / tx.block_size ≤
        tx.block_count - idx := by
      apply (ceil_div_le_iff hbs).mpr
      have hsm : (tx.block_count - idx) * tx.block_size =
          tx.block_count * tx.block_size - idx * tx.block_size := Nat.sub_mul _ _ _
      have hle : idx * tx.block_size ≤ tx.block_count * tx.block_size :=
        Nat.mul_le_mul_right _ (by omega)
      omega
    have hnum0 : 0 < (sz + tx.hdr_size + tx.block_size - 1) / tx.block_size :=
      ceil_div_pos hbs (by omega)
    have hrel : release_tx_blocks tx st idx sz (-1) =
        (⟨st.bm \ Finset.Ico idx
            (idx + (sz + tx.hdr_size + tx.block_size - 1) / tx.block_size),
          st.hdr, st.eptAddrByte⟩, .ok idx) := by
      simp only [release_tx_blocks]
      rw [if_neg (by omega : ¬(0 : ℤ) ≤ -1), if_pos hnum0]
      have hfr : sys_bitarray_free tx.block_count st.bm
          ((sz + tx.hdr_size + tx.block_size - 1) / tx.block_size) idx =
          .ok (st.bm \ Finset.Ico idx
            (idx + (sz + tx.hdr_size + tx.block_size - 1) / tx.block_size)) := by
        unfold sys_bitarray_free
        rw [if_neg (by omega)]
      rw [hfr]
    simp only [received_release_bound, hv, Option.getD_some]
    rw [hrel]
    rw [if_pos ha]

/-- C10 witness: block 0 holds a valid bound-message buffer of size 10 occupying
blocks 0 and 1, its embedded endpoint address 7 is beyond the single registered
endpoint; both blocks are freed, the endpoint table is untouched and -EINVAL is
returned. -/
theorem C10_release_bound_bad_addr_witness :
    chW.wf ∧
    buffer_from_index_validate chW [10, 0, 0, 0, 0, 0, 0, 0] 0 true =
      some (0 * chW.block_size + chW.hdr_size, some 10) ∧
    ([(⟨EPT_ADDR_INVALID, ept_bounding_state.EPT_BOUNDING⟩ : ept_data)].length ≤
      ([7, 0, 0, 0, 0, 0, 0, 0] : List ℕ).getD 0 0) ∧
    received_release_bound chW
        ⟨{0, 1}, [10, 0, 0, 0, 0, 0, 0, 0], [7, 0, 0, 0, 0, 0, 0, 0]⟩
        [⟨EPT_ADDR_INVALID, ept_bounding_state.EPT_BOUNDING⟩] 0 =
      (⟨({0, 1} : Finset ℕ) \ Finset.Ico 0
          (0 + (10 + chW.hdr_size + chW.block_size - 1) / chW.block_size),
        [10, 0, 0, 0, 0, 0, 0, 0], [7, 0, 0, 0, 0, 0, 0, 0]⟩,
       [⟨EPT_ADDR_INVALID, ept_bounding_state.EPT_BOUNDING⟩], .error Err.EINVAL) :=
  ⟨by decide, by decide, by decide,
   C10_release_bound_bad_addr chW
     ⟨{0, 1}, [10, 0, 0, 0, 0, 0, 0, 0], [7, 0, 0, 0, 0, 0, 0, 0]⟩
     [⟨EPT_ADDR_INVALID, ept_bounding_state.EPT_BOUNDING⟩] 0 10
     (by decide) (by decide) (by decide)⟩

/-! ### C7 -/

/-- C7.  Hold-bit receive semantics: for every valid incoming data message the
dispatch clears the buffer's hold bit before invoking the endpoint's receive
callback (the callback observes the bit cleared), and after the callback returns
a RELEASE_DATA notification is sent if and only if the hold bit is still clear;
if the callback set the hold bit, no release notification is sent. -/
theorem C7_hold_bit_receive (rx : channel_config) (ept_count : ℕ) (rxHdrs : List ℕ)
    (hold : Finset ℕ) (idx addr : ℕ) (cb : Finset ℕ → Finset ℕ)
    (hv : buffer_from_index_validate rx rxHdrs idx true ≠ none)
    (ha : addr < ept_count) :
    received_data rx ept_count rxHdrs hold idx addr cb =
      .ok (cb (hold.erase idx), if idx ∈ cb (hold.erase idx) then false else true) ∧
    idx ∉ hold.erase idx ∧
    (∀ h2 sent, received_data rx ept_count rxHdrs hold idx addr cb = .ok (h2, sent) →
      (sent = true ↔ idx ∉ h2)) := by
  rcases hvv : buffer_from_index_validate rx rxHdrs idx true with _ | pr
  · exact absurd hvv hv
  · have heq : received_data rx ept_count rxHdrs hold idx addr cb =
        .ok (cb (hold.erase idx), if idx ∈ cb (hold.erase idx) then false else true) := by
      simp only [received_data, hvv]
      rw [if_neg (Nat.not_le.mpr ha)]
    refine ⟨heq, Finset.not_mem_erase idx hold, ?_⟩
    intro h2 sent h
    rw [heq] at h
    simp only [Except.ok.injEq, Prod.mk.injEq] at h
    obtain ⟨rfl, rfl⟩ := h
    by_cases hm : idx ∈ cb (hold.erase idx)
    · rw [if_pos hm]
      simp [hm]
    · rw [if_neg hm]
      simp [hm]

/-- C7 witness: a valid data message for block 0 with a callback that holds the
buffer (sets the hold bit); validation passes, the callback sees the bit
cleared, and no RELEASE_DATA is sent. -/
theorem C7_hold_bit_receive_witness :
    buffer_from_index_validate chW [10, 0, 0, 0, 0, 0, 0, 0] 0 true ≠ none ∧
    0 < 1 ∧
    (received_data chW 1 [10, 0, 0, 0, 0, 0, 0, 0] ∅ 0 0 (fun h => insert 0 h) =
      .ok (insert 0 ((∅ : Finset ℕ).erase 0),
        if 0 ∈ insert 0 ((∅ : Finset ℕ).erase 0) then false else true) ∧
     0 ∉ (∅ : Finset ℕ).erase 0 ∧
     (∀ h2 sent, received_data chW 1 [10, 0, 0, 0, 0, 0, 0, 0] ∅ 0 0
         (fun h => insert 0 h) = .ok (h2, sent) →
       (sent = true ↔ 0 ∉ h2))) :=
  ⟨by decide, by decide,
   C7_hold_bit_receive chW 1 [10, 0, 0, 0, 0, 0, 0, 0] ∅ 0 0 (fun h => insert 0 h)
     (by decide) (by decide)⟩

/-! ### C6 -/

/-- C6.  The data-send rollback claim fails on the code at a zero-length send:
with 2 free blocks (block size 8, header 4), `send` with `len = 0` lets
`alloc_tx_buffer` greedily grant the 2-block run {0,1}, but when the link send
fails the rollback `release_tx_blocks(.., size = 0, -1)` frees only
`ceil((0+4)/8) = 1` block, so the TX bitmap after the failed send is {1}, not
the pre-allocation state ∅ — block 1 leaks.  This contradicts `send_block`'s
own documented precondition that the passed size must not change the number of
required blocks, which `send` violates for a zero-length payload. -/
theorem C6_send_rollback_leak :
    (send ⟨8, 2, 4⟩ ⟨∅, [0, 0], [0, 0]⟩ 0 false).1.bm = {1} ∧
    (send ⟨8, 2, 4⟩ ⟨∅, [0, 0], [0, 0]⟩ 0 false).2 = .error Err.EIO ∧
    ({1} : Finset ℕ) ≠ (∅ : Finset ℕ) := by decide

end IcmsgWithBuf

namespace IcmsgWithBuf

/-! ### C8 -/

/-- One protocol-respecting event preserves the bonding invariant. -/
lemma bondInv_step (e : BondEpt) (ev : BondEvent) (rrb : ℕ) (hinv : BondInv e rrb)
    (hrrb : rrb + (if ev = BondEvent.recvReleaseBound then 1 else 0) ≤ 1)
    (hm : validBondEvent ev = true) :
    BondInv (bondStep e ev) (rrb + if ev = BondEvent.recvReleaseBound then 1 else 0) := by
  obtain ⟨s, r, c⟩ := e
  have hrrb1 : rrb ≤ 1 := by omega
  interval_cases rrb
  · obtain ⟨hs, hc⟩ := hinv.1 rfl
    cases ev with
    | workerRun ok =>
      rw [if_neg (fun h => BondEvent.noConfusion h), Nat.add_zero]
      rcases hs with hs | hs | hs <;> simp only at hs <;> subst hs
      · exact ⟨fun _ => ⟨Or.inl rfl, hc⟩, fun h => absurd h (by omega)⟩
      · cases ok with
        | true => exact ⟨fun _ => ⟨Or.inr (Or.inr rfl), hc⟩, fun h => absurd h (by omega)⟩
        | false => exact ⟨fun _ => ⟨Or.inl rfl, hc⟩, fun h => absurd h (by omega)⟩
      · exact ⟨fun _ => ⟨Or.inr (Or.inr rfl), hc⟩, fun h => absurd h (by omega)⟩
    | recvBoundMatch a =>
      rw [if_neg (fun h => BondEvent.noConfusion h), Nat.add_zero]
      exact ⟨fun _ => ⟨hs, hc⟩, fun h => absurd h (by omega)⟩
    | recvReleaseBound =>
      rw [if_pos rfl]
      exact ⟨fun h => absurd h (by omega), fun _ => Or.inl ⟨rfl, hc⟩⟩
  · rcases hinv.2 rfl with ⟨hs, hc⟩ | ⟨hs, hc, hr⟩ <;> simp only at hs hc <;> subst hs
    · cases ev with
      | workerRun ok =>
        rw [if_neg (fun h => BondEvent.noConfusion h), Nat.add_zero]
        simp only [bondStep]
        by_cases hri : r ≠ EPT_ADDR_INVALID
        · rw [if_pos hri]
          exact ⟨fun h => absurd h (by omega),
            fun _ => Or.inr ⟨rfl, by show c + 1 = 1; omega, hri⟩⟩
        · rw [if_neg hri]
          exact ⟨fun h => absurd h (by omega), fun _ => Or.inl ⟨rfl, hc⟩⟩
      | recvBoundMatch a =>
        rw [if_neg (fun h => BondEvent.noConfusion h), Nat.add_zero]
        exact ⟨fun h => absurd h (by omega), fun _ => Or.inl ⟨rfl, hc⟩⟩
      | recvReleaseBound =>
        rw [if_pos rfl] at hrrb
        exact absurd hrrb (by omega)
    · cases ev with
      | workerRun ok =>
        rw [if_neg (fun h => BondEvent.noConfusion h), Nat.add_zero]
        exact ⟨fun h => absurd h (by omega), fun _ => Or.inr ⟨rfl, hc, hr⟩⟩
      | recvBoundMatch a =>
        rw [if_neg (fun h => BondEvent.noConfusion h), Nat.add_zero]
        have ha : a ≠ EPT_ADDR_INVALID := of_decide_eq_true hm
        exact ⟨fun h => absurd h (by omega), fun _ => Or.inr ⟨rfl, hc, ha⟩⟩
      | recvReleaseBound =>
        rw [if_pos rfl] at hrrb
        exact absurd hrrb (by omega)

/-- A protocol-respecting trace preserves the bonding invariant. -/
lemma bondInv_run : ∀ (evs : List BondEvent) (e : BondEpt) (rrb : ℕ),
    BondInv e rrb → rrb + countRRB evs ≤ 1 → evs.all validBondEvent = true →
    BondInv (evs.foldl bondStep e) (rrb + countRRB evs) := by
  intro evs
  induction evs with
  | nil =>
    intro e rrb hinv hrrb hall
    simpa [countRRB] using hinv
  | cons ev rest ih =>
    intro e rrb hinv hrrb hall
    rw [List.all_cons, Bool.and_eq_true] at hall
    obtain ⟨hv1, hv2⟩ := hall
    rw [countRRB] at hrrb ⊢
    have hstep := bondInv_step e ev rrb hinv (by omega) hv1
    have hrec := ih (bondStep e ev)
      (rrb + if ev = BondEvent.recvReleaseBound then 1 else 0) hstep (by omega) hv2
    rw [List.foldl_cons]
    have harr : rrb + ((if ev = BondEvent.recvReleaseBound then 1 else 0) + countRRB rest) =
        rrb + (if ev = BondEvent.recvReleaseBound then 1 else 0) + countRRB rest := by
      omega
    rw [harr]
    exact hrec

/-- C8.  Bound callback fires exactly once: over any interleaving of worker runs
and protocol-respecting incoming messages (the peer acknowledges the single
BOUND message with at most one RELEASE_BOUND, and a name match records a real
remote address), the endpoint's user bound callback is invoked at most once, it
has been invoked exactly once whenever the endpoint is READY, the endpoint is
promoted to READY only with a known remote address (and fires the callback
exactly on that transition), and from BOUNDED with a known remote address the
next worker visit performs the promotion and fires the callback. -/
theorem C8_bound_callback_exactly_once (evs : List BondEvent)
    (hrrb : countRRB evs ≤ 1) (hall : evs.all validBondEvent = true) :
    (bondRun evs).bound_calls ≤ 1 ∧
    ((bondRun evs).state = ept_bounding_state.EPT_READY →
      (bondRun evs).remote_addr ≠ EPT_ADDR_INVALID ∧ (bondRun evs).bound_calls = 1) ∧
    ((bondRun evs).bound_calls = 1 → (bondRun evs).state = ept_bounding_state.EPT_READY) ∧
    ((bondRun evs).state = ept_bounding_state.EPT_BOUNDED →
      (bondRun evs).remote_addr ≠ EPT_ADDR_INVALID →
      (bondStep (bondRun evs) (BondEvent.workerRun true)).state =
        ept_bounding_state.EPT_READY ∧
      (bondStep (bondRun evs) (BondEvent.workerRun true)).bound_calls =
        (bondRun evs).bound_calls + 1) := by
  have hinv0 : BondInv initBondEpt 0 :=
    ⟨fun _ => ⟨Or.inr (Or.inl rfl), rfl⟩, fun h => absurd h (by omega)⟩
  have hfin := bondInv_run evs initBondEpt 0 hinv0 (by omega) hall
  rw [show (0 + countRRB evs) = countRRB evs from by omega] at hfin
  have hpromote : ∀ (e : BondEpt), e.state = ept_bounding_state.EPT_BOUNDED →
      e.remote_addr ≠ EPT_ADDR_INVALID →
      (bondStep e (BondEvent.workerRun true)).state = ept_bounding_state.EPT_READY ∧
      (bondStep e (BondEvent.workerRun true)).bound_calls = e.bound_calls + 1 := by
    intro e hs hr
    obtain ⟨s, r, c⟩ := e
    simp only at hs
    subst hs
    simp only [bondStep]
    rw [if_pos hr]
    exact ⟨rfl, rfl⟩
  have hbr : bondRun evs = evs.foldl bondStep initBondEpt := rfl
  rw [hbr]
  have hcase : countRRB evs = 0 ∨ countRRB evs = 1 := by omega
  rcases hcase with hcase | hcase
  · rw [hcase] at hfin
    obtain ⟨hs, hc⟩ := hfin.1 rfl
    refine ⟨by omega, fun hR => ?_, fun h1 => by omega, fun hB hr => hpromote _ hB hr⟩
    rcases hs with h | h | h <;> rw [hR] at h <;> exact ept_bounding_state.noConfusion h
  · rw [hcase] at hfin
    rcases hfin.2 rfl with ⟨hs, hc⟩ | ⟨hs, hc, hr⟩
    · refine ⟨by omega, fun hR => ?_, fun h1 => by omega, fun hB hrr => hpromote _ hB hrr⟩
      rw [hR] at hs
      exact ept_bounding_state.noConfusion hs
    · refine ⟨by omega, fun _ => ⟨hr, hc⟩, fun _ => hs, fun hB hrr => ?_⟩
      rw [hB] at hs
      exact ept_bounding_state.noConfusion hs

/-- C8 witness: the normal handshake trace — worker sends BOUND, the peer's BOUND
is matched recording remote address 0, the peer acknowledges with RELEASE_BOUND,
and the next worker run promotes to READY firing the callback once. -/
theorem C8_bound_callback_exactly_once_witness :
    countRRB [BondEvent.workerRun true, BondEvent.recvBoundMatch 0,
      BondEvent.recvReleaseBound, BondEvent.workerRun true] ≤ 1 ∧
    ([BondEvent.workerRun true, BondEvent.recvBoundMatch 0,
      BondEvent.recvReleaseBound, BondEvent.workerRun true].all validBondEvent = true) ∧
    ((bondRun [BondEvent.workerRun true, BondEvent.recvBoundMatch 0,
        BondEvent.recvReleaseBound, BondEvent.workerRun true]).bound_calls ≤ 1 ∧
     ((bondRun [BondEvent.workerRun true, BondEvent.recvBoundMatch 0,
        BondEvent.recvReleaseBound, BondEvent.workerRun true]).state =
          ept_bounding_state.EPT_READY →
       (bondRun [BondEvent.workerRun true, BondEvent.recvBoundMatch 0,
          BondEvent.recvReleaseBound, BondEvent.workerRun true]).remote_addr ≠
            EPT_ADDR_INVALID ∧
       (bondRun [BondEvent.workerRun true, BondEvent.recvBoundMatch 0,
          BondEvent.recvReleaseBound, BondEvent.workerRun true]).bound_calls = 1) ∧
     ((bondRun [BondEvent.workerRun true, BondEvent.recvBoundMatch 0,
        BondEvent.recvReleaseBound, BondEvent.workerRun true]).bound_calls = 1 →
       (bondRun [BondEvent.workerRun true, BondEvent.recvBoundMatch 0,
          BondEvent.recvReleaseBound, BondEvent.workerRun true]).state =
            ept_bounding_state.EPT_READY) ∧
     ((bondRun [BondEvent.workerRun true, BondEvent.recvBoundMatch 0,
        BondEvent.recvReleaseBound, BondEvent.workerRun true]).state =
          ept_bounding_state.EPT_BOUNDED →
       (bondRun [BondEvent.workerRun true, BondEvent.recvBoundMatch 0,
          BondEvent.recvReleaseBound, BondEvent.workerRun true]).remote_addr ≠
            EPT_ADDR_INVALID →
       (bondStep (bondRun [BondEvent.workerRun true, BondEvent.recvBoundMatch 0,
          BondEvent.recvReleaseBound, BondEvent.workerRun true])
          (BondEvent.workerRun true)).state = ept_bounding_state.EPT_READY ∧
       (bondStep (bondRun [BondEvent.workerRun true, BondEvent.recvBoundMatch 0,
          BondEvent.recvReleaseBound, BondEvent.workerRun true])
          (BondEvent.workerRun true)).bound_calls =
         (bondRun [BondEvent.workerRun true, BondEvent.recvBoundMatch 0,
            BondEvent.recvReleaseBound, BondEvent.workerRun true]).bound_calls + 1)) :=
  ⟨by decide, by decide,
   C8_bound_callback_exactly_once
     [BondEvent.workerRun true, BondEvent.recvBoundMatch 0,
      BondEvent.recvReleaseBound, BondEvent.workerRun true] (by decide) (by decide)⟩

end IcmsgWithBuf
